import Mathlib

/-!
Verification of the pycosio core against its specification.

The definitions below are a shallow embedding of the Python source:
* `pycosio/_core/io_base.py` (stream base: mode flags, per-instance memoization),
* `pycosio/_core/storage_manager.py` (mount registry, configuration merge),
* `pycosio/storage/azure_blob/_block_blob.py` (block-blob buffered writer),
* `pycosio/storage/azure_blob/_base_blob.py` (raw range read).

Python dicts of system parameters are embedded as association lists built in a
canonical key order, Python strings as `List Char` ordered by the lexicographic
order on code points (Python's `<` on `str`), exceptions as `Except`.
-/

namespace Pycosio

/-- Error kinds raised by the embedded code. `invalidMode` and `configError`
are the `ValueError`s of `ObjectIOBase.__init__` and `mount` (the spec's
`InvalidModeError` and `ConfigError`); `azureHttpError n` is
`azure.common.AzureHttpError` with HTTP status code `n`. -/
inductive PyErr where
  | invalidMode : PyErr
  | configError : PyErr
  | azureHttpError : Nat → PyErr
  deriving DecidableEq, Repr

/-- Stream capability flags set by `ObjectIOBase.__init__`
(`self._writable`, `self._readable`, `self._seekable`). -/
structure ModeFlags where
  writable : Bool
  readable : Bool
  seekable : Bool
  deriving DecidableEq, Repr

/-- Embedding of `ObjectIOBase.__init__` (io_base.py): starts from
`_writable = False, _readable = False, _seekable = True`; then
`if 'w' in mode or 'a' in mode: _writable = True`,
`elif 'r' in mode: _readable = True`, `else: raise ValueError('Invalid mode')`.
`readable()`, `writable()`, `seekable()` just return these fields. -/
def objectIOBaseInit (mode : List Char) : Except PyErr ModeFlags :=
  if mode.contains 'w' || mode.contains 'a' then
    .ok { writable := true, readable := false, seekable := true }
  else if mode.contains 'r' then
    .ok { writable := false, readable := true, seekable := true }
  else
    .error .invalidMode

section Memoize

variable {V : Type}

/-- Embedding of one call through `ObjectIOBase._memoize`'s `patched` wrapper
(io_base.py): `try: return self._cache[method_name]` and on `KeyError`
compute `method(self)`, store it under `method_name`, and return it.
The underlying method's (fixed, per-instance) result is `compute`; the third
component counts how many times the underlying method was invoked (0 or 1). -/
def memoizedCall (cache : List (String × V)) (methodName : String)
    (compute : V) : V × List (String × V) × Nat :=
  match cache.lookup methodName with
  | some v => (v, cache, 0)
  | none => (compute, cache ++ [(methodName, compute)], 1)

/-- Runs `n` successive calls of the same memoized accessor on one instance,
threading the instance's `_cache`, collecting the returned values and the
total number of invocations of the underlying method. -/
def memoRun (cache : List (String × V)) (methodName : String) (compute : V) :
    Nat → List V × List (String × V) × Nat
  | 0 => ([], cache, 0)
  | n + 1 =>
    let r := memoizedCall cache methodName compute
    let rest := memoRun r.2.1 methodName compute n
    (r.1 :: rest.1, rest.2.1, r.2.2 + rest.2.2)

end Memoize

end Pycosio

namespace Pycosio

/-- Helper: once the cache holds `methodName ↦ v`, every further call returns
the cached `v` with zero invocations and an unchanged cache. -/
theorem memoRun_of_cached {V : Type} (cache : List (String × V))
    (methodName : String) (v : V) (n : Nat)
    (hc : cache.lookup methodName = some v) :
    memoRun cache methodName v n = (List.replicate n v, cache, 0) := by
  induction n with
  | zero => simp [memoRun]
  | succ n ih =>
    simp [memoRun, memoizedCall, hc, ih, List.replicate_succ]

/-- C8: with the accessor's result not yet cached on the instance, the first
call computes it, stores it in the instance cache keyed by the accessor's
name, and returns it; every one of the `n` calls returns that identical
value, and the underlying method runs exactly once in total. -/
theorem memoize_computes_once {V : Type} (cache : List (String × V))
    (methodName : String) (v : V) (n : Nat)
    (hn : 1 ≤ n) (hc : cache.lookup methodName = none) :
    memoRun cache methodName v n =
      (List.replicate n v, cache ++ [(methodName, v)], 1) := by
  obtain ⟨m, rfl⟩ : ∃ m, n = m + 1 := ⟨n - 1, (Nat.succ_pred_eq_of_pos hn).symm⟩
  have hcache : (cache ++ [(methodName, v)]).lookup methodName = some v := by
    simp [List.lookup_append, hc, List.lookup]
  simp [memoRun, memoizedCall, hc, memoRun_of_cached _ _ _ _ hcache,
    List.replicate_succ]

/-- Witness for C8 at a concrete instance: three calls on an empty cache
return the computed value three times with one invocation. -/
theorem memoize_computes_once_witness :
    memoRun ([] : List (String × Nat)) "getsize" 42 3 =
      ([42, 42, 42], [("getsize", 42)], 1) := by
  have h := memoize_computes_once ([] : List (String × Nat)) "getsize" 42 3
    (by decide) (by simp [List.lookup])
  simpa using h

/-- C6: a mode string containing none of 'r', 'w', 'a' makes the constructor
raise `InvalidModeError`; any mode containing at least one of them is
accepted, and the capability flags it fixes are a function of the mode
alone. -/
theorem init_mode_validation (mode : List Char) :
    (mode.contains 'r' = false → mode.contains 'w' = false →
      mode.contains 'a' = false →
      objectIOBaseInit mode = .error .invalidMode) ∧
    ((mode.contains 'r' || mode.contains 'w' || mode.contains 'a') = true →
      ∃ f, objectIOBaseInit mode = .ok f) := by
  constructor
  · intro hr hw ha
    replace hr : 'r' ∉ mode := by simpa using hr
    replace hw : 'w' ∉ mode := by simpa using hw
    replace ha : 'a' ∉ mode := by simpa using ha
    simp [objectIOBaseInit, hr, hw, ha]
  · intro h
    unfold objectIOBaseInit
    rcases hw : mode.contains 'w' with _ | _ <;>
      rcases ha : mode.contains 'a' with _ | _ <;>
        rcases hr : mode.contains 'r' with _ | _ <;>
          simp_all

/-- Witness for C6: mode "x" (none of r/w/a) is rejected with
`InvalidModeError`, while mode "r" is accepted. -/
theorem init_mode_validation_witness :
    objectIOBaseInit ['x'] = .error .invalidMode ∧
      ∃ f, objectIOBaseInit ['r'] = .ok f :=
  ⟨(init_mode_validation ['x']).1 (by decide) (by decide) (by decide),
    (init_mode_validation ['r']).2 (by decide)⟩

/-- C9: for every accepted mode exactly one of `readable()` and `writable()`
is true; a 'w' or 'a' in the mode makes the stream writable-only, with
`readable()` false even if the mode also contains 'r'; an 'r' yields a
readable stream exactly when neither 'w' nor 'a' is present. -/
theorem readable_writable_exclusive (mode : List Char) (f : ModeFlags)
    (h : objectIOBaseInit mode = .ok f) :
    f.readable ≠ f.writable ∧
      ((mode.contains 'w' || mode.contains 'a') = true →
        f.writable = true ∧ f.readable = false) ∧
      (mode.contains 'r' = true →
        (f.readable = true ↔ (mode.contains 'w' || mode.contains 'a') = false)) := by
  unfold objectIOBaseInit at h
  split at h
  · rename_i hwa
    cases h
    simp_all
    tauto
  · split at h
    · rename_i hwa hr
      cases h
      simp_all
    · cases h

/-- Witness for C9 at mode "rw": the stream is writable and not readable
even though the mode contains 'r'. -/
theorem readable_writable_exclusive_witness :
    ModeFlags.readable { writable := true, readable := false, seekable := true }
        ≠ ModeFlags.writable
          { writable := true, readable := false, seekable := true } ∧
      (((['r', 'w'] : List Char).contains 'w' ||
          (['r', 'w'] : List Char).contains 'a') = true →
        ModeFlags.writable
            { writable := true, readable := false, seekable := true } = true ∧
          ModeFlags.readable
            { writable := true, readable := false, seekable := true } = false) ∧
      ((['r', 'w'] : List Char).contains 'r' = true →
        (ModeFlags.readable
              { writable := true, readable := false, seekable := true } = true ↔
          ((['r', 'w'] : List Char).contains 'w' ||
              (['r', 'w'] : List Char).contains 'a') = false)) :=
  readable_writable_exclusive ['r', 'w']
    { writable := true, readable := false, seekable := true } rfl

section StorageManager

variable {V : Type} [DecidableEq V]

/-- Python dicts of system parameters, embedded as association lists. They
are always built by `system_parameters` in the fixed keyword order, so two
of them are equal as Python dicts exactly when they are equal as lists. -/
abbrev PyDict (V : Type) := List (String × V)

/-- Python `value == {}` for an optional keyword value: `None == {}` is
False; a present value is compared with the empty dict by `eqEmptyDict`. -/
def pyEqEmptyDict (eqEmptyDict : V → Bool) : Option V → Bool
  | none => false
  | some v => eqEmptyDict v

/-- Filter condition of `_system_parameters`:
`value is not None or value == {}`. -/
def keepParam (eqEmptyDict : V → Bool) (value : Option V) : Bool :=
  value.isSome || pyEqEmptyDict eqEmptyDict value

/-- Embedding of `_system_parameters(**kwargs)` (storage_manager.py): the
callers pass exactly `unsecure=...` and `storage_parameters=...`; the dict
comprehension keeps the entries whose value satisfies
`value is not None or value == {}` (the second disjunct is vacuous: `None`
never equals `{}`). The final `filterMap` strips the `Option` wrapper from
the surviving (necessarily present) values. -/
def system_parameters (eqEmptyDict : V → Bool)
    (unsecure storage_parameters : Option V) : PyDict V :=
  (([("unsecure", unsecure), ("storage_parameters", storage_parameters)] :
      List (String × Option V)).filter
    (fun kv => keepParam eqEmptyDict kv.2)).filterMap
    (fun kv => kv.2.map (fun v => (kv.1, v)))

/-- Python `key in dict`. -/
def dictContains (d : PyDict V) (key : String) : Bool :=
  (d.lookup key).isSome

/-- Embedding of the merge in `get_instance`:
`system_parameters.update({key: value for key, value in stored_parameters.items() if key not in system_parameters})`
— the caller's entries keep their values, and the stored entries whose key
the caller did not supply are appended. -/
def updateMissing (caller stored : PyDict V) : PyDict V :=
  caller ++ stored.filter (fun kv => !dictContains caller kv.1)

/-- Mount-table entry: the part of `MOUNTED[root]` that the `cls='system'`
path of `get_instance` reads. The cached driver instance
`info['system_cached']` is represented by the `SystemResult.cached`
outcome. -/
structure MountInfo (V : Type) where
  system_parameters : PyDict V
  deriving DecidableEq

/-- Outcome of `get_instance(name, cls='system', ...)`: either the cached
`info['system_cached']` object itself (object identity), or a fresh
`info['system'](roots=..., **params)` instance constructed from `params`. -/
inductive SystemResult (V : Type) where
  | cached : SystemResult V
  | fresh : PyDict V → SystemResult V
  deriving DecidableEq

/-- Embedding of the registry scan of `get_instance`: the first mounted root
that is a literal prefix of `name` wins. (Compiled-pattern roots are not
modelled; every claim under verification concerns literal string roots.) -/
def findRoot (reg : List (List Char × MountInfo V)) (name : List Char) :
    Option (List Char × MountInfo V) :=
  reg.find? (fun e => e.1.isPrefixOf name)

/-- Embedding of `get_instance(name, cls='system', ...)`
(storage_manager.py) for a `name` served by some mounted root, paired with
the registry it leaves behind (this code path never writes `MOUNTED`).
Mirrors: `stored_parameters = info.get('system_parameters') or dict()`;
`if not system_parameters:` reuse the stored parameters and return
`info['system_cached']`; `elif system_parameters == stored_parameters:`
return `info['system_cached']`; else copy the unspecified keys from the
stored parameters and construct a fresh `info['system']` instance. -/
def getInstanceSystem (eqEmptyDict : V → Bool)
    (reg : List (List Char × MountInfo V)) (name : List Char)
    (unsecure storage_parameters : Option V) :
    Option (SystemResult V) × List (List Char × MountInfo V) :=
  let sp := system_parameters eqEmptyDict unsecure storage_parameters
  match findRoot reg name with
  | none => (none, reg)
  | some e =>
    let stored := if e.2.system_parameters.isEmpty then []
      else e.2.system_parameters
    if sp.isEmpty then (some .cached, reg)
    else if sp = stored then (some .cached, reg)
    else (some (.fresh (updateMissing sp stored)), reg)

end StorageManager

/-- Helper: `info.get('system_parameters') or dict()` has the same content
as the stored dict (an empty dict is replaced by a fresh empty dict). -/
theorem stored_or_empty {V : Type} (l : PyDict V) :
    (if l.isEmpty then ([] : PyDict V) else l) = l := by
  cases l <;> simp

/-- Helper: a key absent from `caller` keeps its `stored` binding through the
filter of `updateMissing`. -/
theorem lookup_filter_missing {V : Type} (caller stored : PyDict V)
    (k : String) (hk : caller.lookup k = none) :
    (stored.filter (fun kv => !dictContains caller kv.1)).lookup k =
      stored.lookup k := by
  induction stored with
  | nil => simp
  | cons kv rest ih =>
    by_cases hkv : kv.1 = k
    · subst hkv
      simp [List.filter, dictContains, hk, List.lookup]
    · have hbeq : (k == kv.1) = false := by
        simp [hkv]
        exact fun h => hkv h.symm
      rcases hken : dictContains caller kv.1 with _ | _ <;>
        simp [List.filter, hken, List.lookup, hbeq, ih]

/-- Helper: in the merged configuration every caller-supplied key keeps the
caller's value and every other key falls back to the stored value. -/
theorem lookup_updateMissing {V : Type} (caller stored : PyDict V)
    (k : String) :
    (updateMissing caller stored).lookup k =
      (caller.lookup k).or (stored.lookup k) := by
  unfold updateMissing
  rw [List.lookup_append]
  rcases hc : caller.lookup k with _ | v
  · simp [lookup_filter_missing caller stored k hc]
  · simp

/-- C2: when `name` is served by a mounted root, `get_instance` with no
configuration or with a configuration equal to the stored one returns the
cached system instance itself; with a different configuration it returns a
fresh instance whose configuration takes every caller-supplied key from the
caller and every other key from the stored configuration — and in every case
the mount registry (holding the cached instance) is left unchanged. -/
theorem get_instance_config_merge {V : Type} [DecidableEq V]
    (eqEmptyDict : V → Bool) (reg : List (List Char × MountInfo V))
    (name root : List Char) (info : MountInfo V)
    (unsecure storage_parameters : Option V)
    (hfound : findRoot reg name = some (root, info)) :
    (system_parameters eqEmptyDict unsecure storage_parameters = [] →
      getInstanceSystem eqEmptyDict reg name unsecure storage_parameters =
        (some .cached, reg)) ∧
    (system_parameters eqEmptyDict unsecure storage_parameters =
        info.system_parameters →
      getInstanceSystem eqEmptyDict reg name unsecure storage_parameters =
        (some .cached, reg)) ∧
    (system_parameters eqEmptyDict unsecure storage_parameters ≠ [] →
      system_parameters eqEmptyDict unsecure storage_parameters ≠
        info.system_parameters →
      getInstanceSystem eqEmptyDict reg name unsecure storage_parameters =
        (some (.fresh (updateMissing
          (system_parameters eqEmptyDict unsecure storage_parameters)
          info.system_parameters)), reg) ∧
      ∀ k, (updateMissing
          (system_parameters eqEmptyDict unsecure storage_parameters)
          info.system_parameters).lookup k =
        ((system_parameters eqEmptyDict unsecure storage_parameters).lookup
          k).or (info.system_parameters.lookup k)) := by
  refine ⟨?_, ?_, ?_⟩
  · intro hempty
    simp [getInstanceSystem, hfound, hempty]
  · intro heq
    by_cases hempty : system_parameters eqEmptyDict unsecure
        storage_parameters = []
    · simp [getInstanceSystem, hfound, hempty]
    · simp only [getInstanceSystem, hfound, stored_or_empty]
      rw [if_neg (by simpa [List.isEmpty_iff] using hempty), if_pos heq]
  · intro hempty hne
    refine ⟨?_, fun k => lookup_updateMissing _ _ k⟩
    simp only [getInstanceSystem, hfound, stored_or_empty]
    rw [if_neg (by simpa [List.isEmpty_iff] using hempty), if_neg hne]

/-- Witness for C2: a registry with one mounted root serving "dummy://", a
stored configuration binding "unsecure", and a caller configuration binding
"storage_parameters": the call returns a fresh instance whose configuration
merges the caller's key with the stored one. -/
theorem get_instance_config_merge_witness :
    getInstanceSystem (V := Nat) (fun _ => false)
        [(['d', ':'], ⟨[("unsecure", 1)]⟩)] ['d', ':', 'x'] none (some 2) =
      (some (.fresh [("storage_parameters", 2), ("unsecure", 1)]),
        [(['d', ':'], ⟨[("unsecure", 1)]⟩)]) ∧
      (updateMissing [("storage_parameters", (2 : Nat))]
          [("unsecure", 1)]).lookup "unsecure" =
        (([("storage_parameters", (2 : Nat))] :
          PyDict Nat).lookup "unsecure").or
          (([("unsecure", (1 : Nat))] : PyDict Nat).lookup "unsecure") := by
  have h := (get_instance_config_merge (V := Nat) (fun _ => false)
    [(['d', ':'], ⟨[("unsecure", 1)]⟩)] ['d', ':', 'x'] ['d', ':']
    ⟨[("unsecure", 1)]⟩ none (some 2) (by decide)).2.2
    (by decide) (by decide)
  constructor
  · have := h.1
    simpa [system_parameters, keepParam, pyEqEmptyDict, updateMissing,
      dictContains] using this
  · have := h.2 "unsecure"
    simpa [system_parameters, keepParam, pyEqEmptyDict] using this

/-- C10: `None`-valued system parameters are filtered out: with both
`unsecure` and `storage_parameters` equal to `None` (their defaults when
omitted) the built configuration is empty; any key that survives the filter
carries a caller-supplied non-`None` value; and a `get_instance` call
supplying only `None` values always takes the cached-instance path, never
the fresh-instance one. -/
theorem none_parameters_equivalent {V : Type} [DecidableEq V]
    (eqEmptyDict : V → Bool) :
    system_parameters eqEmptyDict (none : Option V) none = [] ∧
    (∀ (u p : Option V) (k : String) (v : V),
      (system_parameters eqEmptyDict u p).lookup k = some v →
      (k = "unsecure" ∧ u = some v) ∨
        (k = "storage_parameters" ∧ p = some v)) ∧
    (∀ (reg : List (List Char × MountInfo V)) (name : List Char)
        (r : SystemResult V),
      (getInstanceSystem eqEmptyDict reg name none none).1 = some r →
      r = .cached) := by
  refine ⟨rfl, ?_, ?_⟩
  · intro u p k v h
    cases u <;> cases p <;>
      simp [system_parameters, keepParam, pyEqEmptyDict, List.filter,
        List.lookup] at h <;>
      rcases hbu : (k == "unsecure") with _ | _ <;>
        rcases hbp : (k == "storage_parameters") with _ | _ <;>
          simp_all [List.lookup, beq_iff_eq]
  · intro reg name r h
    unfold getInstanceSystem at h
    rcases hf : findRoot reg name with _ | e <;> rw [hf] at h
    · simp at h
    · exact ((by simpa [system_parameters, keepParam, pyEqEmptyDict]
        using h : SystemResult.cached = r)).symm

/-- Witness for C10: with one mounted root and both parameters `None`, the
resolved instance is the cached one. -/
theorem none_parameters_equivalent_witness :
    SystemResult.cached =
      (SystemResult.cached : SystemResult Nat) ∧
      system_parameters (V := Nat) (fun _ => false) none none = [] := by
  have h := none_parameters_equivalent (V := Nat) (fun _ => false)
  refine ⟨(h.2.2 [(['d'], ⟨[("unsecure", 1)]⟩)] ['d'] .cached rfl).symm ▸ rfl,
    h.1⟩

section Registry

variable {V : Type} [DecidableEq V]

/-- Ordering used by the reorder step of `mount`: `_compare_root` is the
identity on literal string roots, so Python's ascending `sorted(...)`
arranges entries by root under the lexicographic order on code points. -/
def rootLe (a b : List Char × MountInfo V) : Prop := ¬ b.1 < a.1

instance : DecidableRel (rootLe (V := V)) :=
  fun a b => inferInstanceAs (Decidable ¬ b.1 < a.1)

instance : IsTotal (List Char × MountInfo V) rootLe :=
  ⟨fun a b => (le_total a.1 b.1).imp not_lt.2 not_lt.2⟩

instance : IsTrans (List Char × MountInfo V) rootLe :=
  ⟨fun _ _ _ hab hbc =>
    not_lt.2 (le_trans (not_lt.1 hab) (not_lt.1 hbc))⟩

/-- Embedding of the reorder step of `mount` (storage_manager.py):
`OrderedDict((key, MOUNTED[key]) for key in reversed(sorted(MOUNTED, key=_compare_root)))`
— the entries of the table, sorted by root in descending lexicographic
order. -/
def reorderMounted (reg : List (List Char × MountInfo V)) :
    List (List Char × MountInfo V) :=
  (reg.insertionSort rootLe).reverse

/-- Embedding of `MOUNTED[root] = storage_info` on the ordered dict: an
existing key keeps its position and takes the new value, a new key is
appended. -/
def setRoot (reg : List (List Char × MountInfo V)) (root : List Char)
    (info : MountInfo V) : List (List Char × MountInfo V) :=
  if reg.any (fun e => e.1 == root) then
    reg.map (fun e => if e.1 = root then (root, info) else e)
  else reg ++ [(root, info)]

/-- Embedding of the mounting step of `mount`: insert one registry entry per
storage root, then reorder the whole table. -/
def mountRoots (reg : List (List Char × MountInfo V))
    (roots : List (List Char)) (info : MountInfo V) :
    List (List Char × MountInfo V) :=
  reorderMounted (roots.foldl (fun r root => setRoot r root info) reg)

/-- Registry contents after a whole sequence of `mount` calls, starting from
the empty table. -/
def mountAll (mounts : List (List (List Char) × MountInfo V)) :
    List (List Char × MountInfo V) :=
  mounts.foldl (fun reg m => mountRoots reg m.1 m.2) []

end Registry

/-- Helper: a proper prefix is lexicographically smaller. -/
theorem lt_of_prefix_ne (a b : List Char) (h : a <+: b) (hne : a ≠ b) :
    a < b := by
  obtain ⟨t, rfl⟩ := h
  cases t with
  | nil => simp at hne
  | cons c cs =>
    clear hne
    induction a with
    | nil => exact List.Lex.nil
    | cons x xs ih => exact List.Lex.cons ih

/-- Helper: the reordered table is sorted by root in descending
lexicographic order. -/
theorem reorderMounted_sorted {V : Type} [DecidableEq V]
    (reg : List (List Char × MountInfo V)) :
    List.Sorted (fun a b => rootLe b a) (reorderMounted reg) := by
  unfold reorderMounted
  exact List.pairwise_reverse.2 (List.sorted_insertionSort rootLe reg)

/-- Helper: every registry produced by a sequence of mounts is sorted by
root in descending lexicographic order. -/
theorem mountAll_sorted {V : Type} [DecidableEq V]
    (mounts : List (List (List Char) × MountInfo V)) :
    List.Sorted (fun a b => rootLe b a) (mountAll mounts) := by
  have key : ∀ (ms : List (List (List Char) × MountInfo V))
      (reg : List (List Char × MountInfo V)),
      List.Sorted (fun a b => rootLe b a) reg →
      List.Sorted (fun a b => rootLe b a)
        (ms.foldl (fun r m => mountRoots r m.1 m.2) reg) := by
    intro ms
    induction ms with
    | nil => exact fun reg h => h
    | cons m ms ih =>
      intro reg _
      exact ih (mountRoots reg m.1 m.2) (reorderMounted_sorted _)
  exact key mounts [] (List.sorted_nil)

/-- Helper: in a registry sorted by root in descending lexicographic order,
the first root that is a prefix of the path is a longest one. -/
theorem findRoot_longest {V : Type} [DecidableEq V]
    (reg : List (List Char × MountInfo V)) (p r : List Char)
    (info : MountInfo V)
    (hs : List.Sorted (fun a b => rootLe b a) reg)
    (h : findRoot reg p = some (r, info)) :
    r.isPrefixOf p = true ∧
      ∀ e ∈ reg, e.1.isPrefixOf p = true → e.1.length ≤ r.length := by
  rw [findRoot, List.find?_eq_some] at h
  obtain ⟨hpred, as, bs, rfl, hbefore⟩ := h
  refine ⟨hpred, ?_⟩
  intro e he hep
  by_contra hlen
  push_neg at hlen
  have hpre : r <+: e.1 := List.prefix_of_prefix_length_le
    (List.isPrefixOf_iff_prefix.1 hpred)
    (List.isPrefixOf_iff_prefix.1 hep) (le_of_lt hlen)
  have hlt : r < e.1 := lt_of_prefix_ne _ _ hpre
    (fun heq => absurd (congrArg List.length heq) (by omega))
  rcases List.mem_append.1 he with hin | hin
  · have := hbefore e hin
    simp [hep] at this
  · rcases List.mem_cons.1 hin with heq | hin
    · rw [heq] at hlen
      simp at hlen
    · have hpair : List.Pairwise (fun a b => rootLe b a) ((r, info) :: bs) :=
        (List.pairwise_append.1 hs).2.1
      exact (List.pairwise_cons.1 hpair).1 e hin hlt

/-- The literal root "dummy://" of the spec's resolution example. -/
def dummyRoot : List Char := ['d', 'u', 'm', 'm', 'y', ':', '/', '/']

/-- The literal root "dummy://sub/" of the spec's resolution example. -/
def dummySubRoot : List Char :=
  ['d', 'u', 'm', 'm', 'y', ':', '/', '/', 's', 'u', 'b', '/']

/-- C3: after any sequence of mount operations the registry resolves every
path to a longest mounted root that is a prefix of it; in particular, with
"dummy://" and "dummy://sub/" both mounted (in either order), every path
that starts with "dummy://sub/" resolves to the entry mounted at
"dummy://sub/", never to the one at "dummy://". -/
theorem registry_matches_longest_root {V : Type} [DecidableEq V] :
    (∀ (mounts : List (List (List Char) × MountInfo V)) (p r : List Char)
        (info : MountInfo V),
      findRoot (mountAll mounts) p = some (r, info) →
      r.isPrefixOf p = true ∧
        ∀ e ∈ mountAll mounts, e.1.isPrefixOf p = true →
          e.1.length ≤ r.length) ∧
    (∀ (suffix : List Char) (i1 i2 : MountInfo V),
      (findRoot (mountAll [([dummyRoot], i1), ([dummySubRoot], i2)])
          (dummySubRoot ++ suffix)).map Prod.fst = some dummySubRoot ∧
      (findRoot (mountAll [([dummySubRoot], i2), ([dummyRoot], i1)])
          (dummySubRoot ++ suffix)).map Prod.fst = some dummySubRoot) := by
  constructor
  · intro mounts p r info h
    exact findRoot_longest _ _ _ _ (mountAll_sorted mounts) h
  · intro suffix i1 i2
    have hpre : dummySubRoot.isPrefixOf (dummySubRoot ++ suffix) = true :=
      List.isPrefixOf_iff_prefix.2 (List.prefix_append _ _)
    have hreg1 : mountAll [([dummyRoot], i1), ([dummySubRoot], i2)] =
        [(dummySubRoot, i2), (dummyRoot, i1)] := rfl
    have hreg2 : mountAll [([dummySubRoot], i2), ([dummyRoot], i1)] =
        [(dummySubRoot, i2), (dummyRoot, i1)] := rfl
    rw [hreg1, hreg2]
    constructor <;>
      simp [findRoot, List.find?_cons_of_pos _ hpre]

/-- Witness for C3: with "dummy://" then "dummy://sub/" mounted, resolving
"dummy://sub/obj" yields the root "dummy://sub/", the matched root is a
prefix of the path, and no applicable mounted root is longer. -/
theorem registry_matches_longest_root_witness :
    (dummySubRoot.isPrefixOf
        (['d', 'u', 'm', 'm', 'y', ':', '/', '/', 's', 'u', 'b', '/',
          'o', 'b', 'j']) = true ∧
      ∀ e ∈ mountAll (V := Nat) [([dummyRoot], ⟨[]⟩), ([dummySubRoot], ⟨[]⟩)],
        e.1.isPrefixOf
            (['d', 'u', 'm', 'm', 'y', ':', '/', '/', 's', 'u', 'b', '/',
              'o', 'b', 'j']) = true →
          e.1.length ≤ dummySubRoot.length) ∧
    (findRoot (mountAll (V := Nat)
        [([dummyRoot], ⟨[]⟩), ([dummySubRoot], ⟨[]⟩)])
        (dummySubRoot ++ ['o', 'b', 'j'])).map Prod.fst =
      some dummySubRoot :=
  ⟨(registry_matches_longest_root (V := Nat)).1
      [([dummyRoot], ⟨[]⟩), ([dummySubRoot], ⟨[]⟩)]
      ['d', 'u', 'm', 'm', 'y', ':', '/', '/', 's', 'u', 'b', '/',
        'o', 'b', 'j'] dummySubRoot ⟨[]⟩ (by decide),
    ((registry_matches_longest_root (V := Nat)).2 ['o', 'b', 'j'] ⟨[]⟩ ⟨[]⟩).1⟩

/-- Embedding of `name.split('://', 1)[0]` guarded by `'://' in name`
(storage_manager.py): the part of the string before the first occurrence of
"://", or `none` when the separator does not occur. -/
def splitScheme : List Char → Option (List Char)
  | [] => none
  | c :: cs =>
    if [':', '/', '/'].isPrefixOf (c :: cs) then some []
    else (splitScheme cs).map (fun s => c :: s)

/-- Helper: the split finds no scheme exactly when "://" does not occur in
the name. -/
theorem splitScheme_eq_none (name : List Char) :
    splitScheme name = none ↔ ¬ [':', '/', '/'] <:+: name := by
  induction name with
  | nil => simp [splitScheme]
  | cons c cs ih =>
    rw [splitScheme]
    by_cases hp : [':', '/', '/'].isPrefixOf (c :: cs) = true
    · simp only [hp, if_true]
      simp only [false_iff, not_not, reduceCtorEq]
      exact (List.isPrefixOf_iff_prefix.1 hp).isInfix
    · rw [Bool.not_eq_true] at hp
      simp only [hp, Bool.false_eq_true, if_false, Option.map_eq_none', ih,
        List.infix_cons_iff, not_or]
      have hnp : ¬ [':', '/', '/'] <+: c :: cs := by
        rw [← List.isPrefixOf_iff_prefix, hp]
        simp
      tauto

/-- Helper: when the scheme part itself contains no "://", the split of
`scheme ++ "://" ++ rest` returns exactly `scheme` (the separator cannot
occur earlier, not even straddling the boundary). -/
theorem splitScheme_append (scheme rest : List Char)
    (h : ¬ [':', '/', '/'] <:+: scheme) :
    splitScheme (scheme ++ [':', '/', '/'] ++ rest) = some scheme := by
  induction scheme with
  | nil => simp [splitScheme, List.isPrefixOf]
  | cons c s ih =>
    have hs : ¬ [':', '/', '/'] <:+: s := fun hinf => h (List.infix_cons hinf)
    have hrec := ih hs
    have hp : ([':', '/', '/'].isPrefixOf
        (c :: (s ++ ([':', '/', '/'] ++ rest)))) = false := by
      rcases s with _ | ⟨a, s1⟩
      · simp [List.isPrefixOf]
      · rcases s1 with _ | ⟨b, s2⟩
        · simp [List.isPrefixOf]
        · by_contra hq
          rw [Bool.not_eq_false] at hq
          simp only [List.cons_append, List.isPrefixOf, Bool.and_eq_true,
            beq_iff_eq] at hq
          obtain ⟨h1, h2, h3, _⟩ := hq
          subst h1
          subst h2
          subst h3
          exact h (List.IsPrefix.isInfix ⟨s2, rfl⟩)
    rw [show s ++ [':', '/', '/'] ++ rest = s ++ ([':', '/', '/'] ++ rest)
      from by simp] at hrec
    simp only [List.cons_append, List.append_eq, List.append_assoc,
      List.nil_append] at hrec hp
    simp [splitScheme, hp, hrec]

/-- Embedding of the storage-inference step of `mount`
(storage_manager.py): with `storage is None`, take
`name.split('://', 1)[0].lower()` when `'://' in name`, aliasing 'https' to
'http'; otherwise raise `ValueError('No storage specified and unable to
infer it from file name.')` — the spec's `ConfigError`. -/
def inferStorage (storage : Option (List Char)) (name : List Char) :
    Except PyErr (List Char) :=
  match storage with
  | some s => .ok s
  | none =>
    match splitScheme name with
    | some schemePart =>
      let lowered := schemePart.map Char.toLower
      .ok (if lowered = ['h', 't', 't', 'p', 's'] then ['h', 't', 't', 'p']
        else lowered)
    | none => .error .configError

/-- Embedding of `mount` (storage_manager.py) down to its registry effect:
infer the storage name, then — with the driver's canonical roots supplied
by `getRoots` and the built `storage_info` by `mkInfo` — insert one entry
per root and reorder the table. The inference `ValueError` is raised before
`MOUNTED` is read or written, so on that error the registry is returned
untouched. -/
def mountRun {V : Type} [DecidableEq V]
    (getRoots : List Char → List (List Char))
    (mkInfo : List Char → MountInfo V)
    (storage : Option (List Char)) (name : List Char)
    (reg : List (List Char × MountInfo V)) :
    Except PyErr (List Char) × List (List Char × MountInfo V) :=
  match inferStorage storage name with
  | .error e => (.error e, reg)
  | .ok s => (.ok s, mountRoots reg (getRoots s) (mkInfo s))

/-- C5: when `mount` is called without a storage name, a name with no "://"
separator makes it fail with the no-storage error (the spec's
`ConfigError`) and leaves the registry unchanged, while a name of the form
`scheme ++ "://" ++ rest` makes it use the lowercased scheme, with "https"
aliased to "http". -/
theorem mount_infers_scheme {V : Type} [DecidableEq V]
    (getRoots : List Char → List (List Char))
    (mkInfo : List Char → MountInfo V) :
    (∀ (name : List Char) (reg : List (List Char × MountInfo V)),
      ¬ [':', '/', '/'] <:+: name →
      mountRun getRoots mkInfo none name reg = (.error .configError, reg)) ∧
    (∀ (scheme rest : List Char) (reg : List (List Char × MountInfo V)),
      ¬ [':', '/', '/'] <:+: scheme →
      (mountRun getRoots mkInfo none (scheme ++ [':', '/', '/'] ++ rest)
          reg).1 =
        .ok (if scheme.map Char.toLower = ['h', 't', 't', 'p', 's']
          then ['h', 't', 't', 'p'] else scheme.map Char.toLower)) := by
  constructor
  · intro name reg hsep
    rw [mountRun, inferStorage, (splitScheme_eq_none name).2 hsep]
  · intro scheme rest reg hsep
    rw [mountRun, inferStorage, splitScheme_append scheme rest hsep]

/-- Witness for C5: mounting "abc" (no separator) fails with the
configuration error and keeps the registry; mounting "HTTPS://x" resolves
the storage name to "http". -/
theorem mount_infers_scheme_witness :
    mountRun (V := Nat) (fun _ => []) (fun _ => ⟨[]⟩) none ['a', 'b', 'c']
        [(['d'], ⟨[]⟩)] = (.error .configError, [(['d'], ⟨[]⟩)]) ∧
      (mountRun (V := Nat) (fun _ => []) (fun _ => ⟨[]⟩) none
          (['H', 'T', 'T', 'P', 'S'] ++ [':', '/', '/'] ++ ['x'])
          []).1 = .ok ['h', 't', 't', 'p'] := by
  constructor
  · exact (mount_infers_scheme (V := Nat) (fun _ => []) (fun _ => ⟨[]⟩)).1
      ['a', 'b', 'c'] [(['d'], ⟨[]⟩)] (by decide)
  · have h := (mount_infers_scheme (V := Nat) (fun _ => [])
      (fun _ => ⟨[]⟩)).2 ['H', 'T', 'T', 'P', 'S'] ['x'] [] (by decide)
    rw [h]
    rfl

section BlockBlob

variable {E : Type}

/-- Write-side state of `AzureBlockBlobBufferedIO` (_block_blob.py):
`_blocks` — the `BlobBlock` ids appended by `_flush`, tagged with the
chunk's submission sequence index — and `_write_futures` — one entry per
`put_block` submission, tagged the same way, carrying the outcome its
worker will deliver. -/
structure BlockWriteState (E : Type) where
  seq : Nat
  blocks : List (Nat × String)
  write_futures : List (Nat × Except E Unit)

/-- Embedding of `AzureBlockBlobBufferedIO._flush`: submit
`put_block(block=..., block_id=block_id)` to the worker pool (appending the
future, which will resolve to `outcome`, to `self._write_futures`) and
append `BlobBlock(id=block_id)` to `self._blocks`. The submission sequence
index is the number of previously flushed chunks. -/
def blockFlush (st : BlockWriteState E) (blockId : String)
    (outcome : Except E Unit) : BlockWriteState E :=
  { seq := st.seq + 1
    blocks := st.blocks ++ [(st.seq, blockId)]
    write_futures := st.write_futures ++ [(st.seq, outcome)] }

/-- A whole multi-chunk flush sequence on a fresh writable stream
(`self._blocks = []`, no outstanding futures): chunk i carries its block id
and the outcome its worker will deliver. -/
def runFlushes (chunks : List (String × Except E Unit)) : BlockWriteState E :=
  chunks.foldl (fun st c => blockFlush st c.1 c.2) ⟨0, [], []⟩

/-- Tags consecutive submission sequence indices, starting at `k`, onto a
list. -/
def enumFrom {α : Type} (k : Nat) : List α → List (Nat × α)
  | [] => []
  | x :: xs => (k, x) :: enumFrom (k + 1) xs

/-- Embedding of the wait loop of `_close_writable`
(`for future in self._write_futures: future.result()`): walks the futures
in submission order and re-raises the error of the earliest-submitted
failed chunk, if any. -/
def waitFutures : List (Nat × Except E Unit) → Except E Unit
  | [] => .ok ()
  | (_, .ok ()) :: rest => waitFutures rest
  | (_, .error e) :: _ => .error e

/-- Embedding of `AzureBlockBlobBufferedIO._close_writable`, instrumented
with the list of `put_block_list` (commit) calls it performs. The worker
pool resolves the futures in the wall-clock order `completionOrder`; a
`future.result()` call returns the future's stored outcome once the future
has completed, so the wait loop terminates for every completion order that
covers all submitted futures (`none` models a wait that never returns,
impossible on a real pool); the stored outcomes, not the completion order,
determine every returned value. After the loop the commit call is
`put_block_list(block_list=block_list.committed_blocks + self._blocks)`. -/
def closeWritable (completionOrder : List Nat)
    (committed : List (Nat × String)) (st : BlockWriteState E) :
    Option (Except E Unit × List (List (Nat × String))) :=
  if st.write_futures.all (fun f => completionOrder.contains f.1) then
    match waitFutures st.write_futures with
    | .error e => some (.error e, [])
    | .ok () => some (.ok (), [committed ++ st.blocks])
  else none

end BlockBlob

/-- Helper: the sequence indices tagged from `k` are `range' k len`. -/
theorem enumFrom_map_fst {α : Type} (k : Nat) (l : List α) :
    (enumFrom k l).map Prod.fst = List.range' k l.length := by
  induction l generalizing k with
  | nil => simp [enumFrom]
  | cons x xs ih => simp [enumFrom, List.range'_succ, ih]

/-- Helper: flushing a list of chunks appends their ids to `_blocks` and
their futures to `_write_futures`, both tagged with consecutive submission
sequence indices. -/
theorem runFlushes_foldl {E : Type} (chunks : List (String × Except E Unit))
    (st : BlockWriteState E) :
    chunks.foldl (fun s c => blockFlush s c.1 c.2) st =
      ⟨st.seq + chunks.length,
        st.blocks ++ enumFrom st.seq (chunks.map Prod.fst),
        st.write_futures ++ enumFrom st.seq (chunks.map Prod.snd)⟩ := by
  induction chunks generalizing st with
  | nil => simp [enumFrom]
  | cons c cs ih =>
    rw [List.foldl_cons, ih]
    simp [blockFlush, enumFrom]
    omega

/-- Helper: the state after an n-chunk flush sequence. -/
theorem runFlushes_spec {E : Type} (chunks : List (String × Except E Unit)) :
    runFlushes chunks =
      ⟨chunks.length, enumFrom 0 (chunks.map Prod.fst),
        enumFrom 0 (chunks.map Prod.snd)⟩ := by
  rw [runFlushes, runFlushes_foldl]
  simp

/-- Helper: the values under the sequence tags are the original list. -/
theorem enumFrom_map_snd {α : Type} (k : Nat) (l : List α) :
    (enumFrom k l).map Prod.snd = l := by
  induction l generalizing k with
  | nil => simp [enumFrom]
  | cons x xs ih => simp [enumFrom, ih]

/-- Helper: every tagged index lies in the tagged range. -/
theorem mem_enumFrom {α : Type} (k : Nat) (l : List α) (x : Nat × α)
    (hx : x ∈ enumFrom k l) : k ≤ x.1 ∧ x.1 < k + l.length := by
  induction l generalizing k with
  | nil => simp [enumFrom] at hx
  | cons y ys ih =>
    rw [enumFrom, List.mem_cons] at hx
    rcases hx with rfl | h
    · simp
    · have := ih (k + 1) h
      constructor <;> [omega; simpa [Nat.add_comm, Nat.add_left_comm]
        using this.2]

/-- Helper: a wait over all-successful futures returns success. -/
theorem waitFutures_all_ok {E : Type} (l : List (Nat × Except E Unit))
    (h : ∀ x ∈ l, x.2 = .ok ()) : waitFutures l = .ok () := by
  induction l with
  | nil => rfl
  | cons x xs ih =>
    have hx := h x (List.mem_cons_self x xs)
    rcases x with ⟨i, o⟩
    simp only at hx
    subst hx
    rw [waitFutures]
    exact ih (fun y hy => h y (List.mem_cons_of_mem _ hy))

/-- Helper: a successful wait means every future succeeded. -/
theorem waitFutures_ok_all {E : Type} (l : List (Nat × Except E Unit))
    (h : waitFutures l = .ok ()) : ∀ x ∈ l, x.2 = .ok () := by
  induction l with
  | nil => simp
  | cons x xs ih =>
    rcases x with ⟨i, o⟩
    rcases o with e | u
    · rw [waitFutures] at h
      exact absurd h (by simp)
    · cases u
      rw [waitFutures] at h
      intro y hy
      rcases List.mem_cons.1 hy with rfl | hy2
      · rfl
      · exact ih h y hy2

/-- Helper: the wait re-raises the error of the earliest-submitted failed
future. -/
theorem waitFutures_enumFrom_error {E : Type} (k : Nat)
    (preOuts postOuts : List (Except E Unit)) (e : E)
    (hpre : ∀ o ∈ preOuts, o = .ok ()) :
    waitFutures (enumFrom k (preOuts ++ .error e :: postOuts)) = .error e := by
  induction preOuts generalizing k with
  | nil => rfl
  | cons o os ih =>
    have ho := hpre o (List.mem_cons_self o os)
    subst ho
    rw [List.cons_append, enumFrom, waitFutures]
    exact ih (k + 1) (fun y hy => hpre y (List.mem_cons_of_mem _ hy))

/-- C1: for every multi-chunk flush sequence and every completion order of
the worker pool that covers the submitted futures, closing the stream
passes to `put_block_list` exactly `committed_blocks` followed by the
flushed chunks in submission order: the new-block segment carries the
submission sequence indices 0, 1, ..., n-1, strictly increasing, however
the pool interleaved the chunk completions. -/
theorem commit_list_in_submission_order {E : Type} (ids : List String)
    (committed : List (Nat × String)) (completionOrder : List Nat)
    (hcover : ∀ i, i < ids.length → completionOrder.contains i = true) :
    closeWritable completionOrder committed
        (runFlushes (ids.map (fun b => (b, (.ok () : Except E Unit))))) =
      some (.ok (), [committed ++ enumFrom 0 ids]) ∧
    (enumFrom 0 ids).map Prod.fst = List.range ids.length ∧
    List.Sorted (· < ·) ((enumFrom 0 ids).map Prod.fst) := by
  have hfst : (ids.map (fun b => (b, (.ok () : Except E Unit)))).map
      Prod.fst = ids := by
    simp [Function.comp_def]
  refine ⟨?_, ?_, ?_⟩
  · rw [runFlushes_spec]
    have hall : ((enumFrom 0 ((ids.map
        (fun b => (b, (.ok () : Except E Unit)))).map Prod.snd)).all
          (fun f => completionOrder.contains f.1)) = true := by
      rw [List.all_eq_true]
      intro f hf
      have hb := mem_enumFrom 0 _ f hf
      exact hcover f.1 (by simpa using hb.2)
    have hwait : waitFutures (enumFrom 0 ((ids.map
        (fun b => (b, (.ok () : Except E Unit)))).map Prod.snd)) = .ok () := by
      apply waitFutures_all_ok
      intro x hx
      have hx2 : x.2 ∈ (enumFrom 0 ((ids.map
          (fun b => (b, (.ok () : Except E Unit)))).map Prod.snd)).map
            Prod.snd := List.mem_map_of_mem Prod.snd hx
      rw [enumFrom_map_snd, List.map_map] at hx2
      simp only [Function.comp_def] at hx2
      rcases List.mem_map.1 hx2 with ⟨b, hb, hv⟩
      exact hv.symm
    rw [closeWritable, if_pos hall, hwait, hfst]
  · rw [enumFrom_map_fst, List.range_eq_range']
  · rw [enumFrom_map_fst]
    exact List.pairwise_lt_range' 0 ids.length

/-- Witness for C1: three flushed chunks with completion order reversed
still commit `[(0, a), (1, b), (2, c)]` after the previously committed
blocks, in ascending sequence order. -/
theorem commit_list_in_submission_order_witness :
    closeWritable (E := Nat) [2, 1, 0] [(7, "old")]
        (runFlushes (["a", "b", "c"].map
          (fun b => (b, (.ok () : Except Nat Unit))))) =
      some (.ok (), [[(7, "old"), (0, "a"), (1, "b"), (2, "c")]]) ∧
      (enumFrom 0 ["a", "b", "c"]).map Prod.fst = List.range 3 := by
  have h := commit_list_in_submission_order (E := Nat) ["a", "b", "c"]
    [(7, "old")] [2, 1, 0] (by decide)
  refine ⟨?_, by simpa using h.2.1⟩
  rw [h.1]
  rfl

/-- C4: if any chunk upload of a multi-chunk flush failed, closing the
stream re-raises the earliest-submitted failed chunk's error and performs
no `put_block_list` call at all (empty commit trace); and whenever a close
does perform a commit, the close succeeded and every submitted chunk had
resolved successfully. -/
theorem failed_chunk_aborts_commit {E : Type}
    (pre post : List (String × Except E Unit)) (blockId : String) (e : E)
    (committed : List (Nat × String)) (completionOrder : List Nat)
    (hcover : ∀ i, i < pre.length + 1 + post.length →
      completionOrder.contains i = true)
    (hpre : ∀ c ∈ pre, c.2 = .ok ()) :
    closeWritable completionOrder committed
        (runFlushes (pre ++ (blockId, .error e) :: post)) =
      some (.error e, []) ∧
    (∀ (chunks : List (String × Except E Unit)) (r : Except E Unit)
        (trace : List (List (Nat × String))),
      closeWritable completionOrder committed (runFlushes chunks) =
        some (r, trace) →
      trace ≠ [] → r = .ok () ∧ ∀ c ∈ chunks, c.2 = .ok ()) := by
  constructor
  · rw [runFlushes_spec]
    have hall : ((enumFrom 0 ((pre ++ (blockId, .error e) :: post).map
        Prod.snd)).all (fun f => completionOrder.contains f.1)) = true := by
      rw [List.all_eq_true]
      intro f hf
      have hb := mem_enumFrom 0 _ f hf
      refine hcover f.1 ?_
      have := hb.2
      simp only [List.length_map, List.length_append, List.length_cons]
        at this
      omega
    have hwait : waitFutures (enumFrom 0 ((pre ++ (blockId, .error e) ::
        post).map Prod.snd)) = .error e := by
      rw [List.map_append, List.map_cons]
      apply waitFutures_enumFrom_error
      intro o ho
      rcases List.mem_map.1 ho with ⟨c, hc, hv⟩
      rw [← hv]
      exact hpre c hc
    rw [closeWritable, if_pos hall, hwait]
  · intro chunks r trace h htrace
    rw [runFlushes_spec, closeWritable] at h
    by_cases hall : ((enumFrom 0 (chunks.map Prod.snd)).all
        (fun f => completionOrder.contains f.1)) = true
    · rw [if_pos hall] at h
      rcases hw : waitFutures (enumFrom 0 (chunks.map Prod.snd)) with e2 | u
      · rw [hw] at h
        obtain ⟨rfl, rfl⟩ : Except.error e2 = r ∧
            ([] : List (List (Nat × String))) = trace := by
          simpa using h
        exact absurd rfl htrace
      · cases u
        rw [hw] at h
        obtain ⟨rfl, rfl⟩ : Except.ok () = r ∧
            [committed ++ enumFrom 0 (chunks.map Prod.fst)] = trace := by
          simpa using h
        refine ⟨rfl, ?_⟩
        intro c hc
        have hmem : c.2 ∈ (enumFrom 0 (chunks.map Prod.snd)).map Prod.snd := by
          rw [enumFrom_map_snd]
          exact List.mem_map_of_mem Prod.snd hc
        rcases List.mem_map.1 hmem with ⟨x, hx, hv⟩
        rw [← hv]
        exact waitFutures_ok_all _ hw x hx
    · rw [if_neg hall] at h
      exact absurd h (by simp)

/-- Witness for C4: with a successful first chunk and a failing second one,
close re-raises the failure (error 5) and performs no commit call, for a
reversed completion order. -/
theorem failed_chunk_aborts_commit_witness :
    closeWritable (E := Nat) [1, 0] [] (runFlushes
        ([("a", .ok ())] ++ ("b", .error 5) :: [])) =
      some (.error 5, []) := by
  have h := failed_chunk_aborts_commit (E := Nat) [("a", .ok ())] []
    "b" 5 [] [1, 0] (by decide)
    (by intro c hc; rcases List.mem_singleton.1 hc with rfl; rfl)
  exact h.1

/-- Embedding of the Azure `get_blob_to_stream` range download — the
external SDK collaborator of `AzureBlobRawIO._read_range` — under the HTTP
range semantics the driver relies on: a start offset at or past the blob
size is answered with HTTP status 416 (range not satisfiable); otherwise
the bytes from `start` through `endRange` (inclusive, clipped to the blob
size; through the end of the blob when no `endRange` is given) are written
to the stream. -/
def get_blob_to_stream (content : List Nat) (start : Nat)
    (endRange : Option Nat) : Except PyErr (List Nat) :=
  if content.length ≤ start then .error (.azureHttpError 416)
  else
    match endRange with
    | some e => .ok ((content.take (e + 1)).drop start)
    | none => .ok (content.drop start)

/-- Embedding of `AzureBlobRawIO._read_range` (_base_blob.py): calls the
range download with `end_range = end - 1` when an end position is given
(`end = 0` means unbounded) and turns the 416 answer into an empty byte
string; any other Azure error is re-raised. -/
def read_range (content : List Nat) (start endPos : Nat) :
    Except PyErr (List Nat) :=
  match get_blob_to_stream content start
      (if endPos = 0 then none else some (endPos - 1)) with
  | .ok bs => .ok bs
  | .error (.azureHttpError code) =>
    if code = 416 then .ok [] else .error (.azureHttpError code)
  | .error err => .error err

/-- Modelled from the spec: `ObjectRawIOBase.readinto` — the raw-stream
read loop lives in `pycosio/_core/io_raw.py`, which is not among the
sources. Spec 4.3: `readinto(buffer)` delegates to the driver's range-read
primitive for the bounded range at the current position, copies the
returned bytes into the head of the buffer, and advances the position by
the number of bytes actually returned. Returns the byte count, the new
stream position, and the buffer content after the call. -/
def readinto (content : List Nat) (pos : Nat) (buf : List Nat) :
    Except PyErr (Nat × Nat × List Nat) :=
  match read_range content pos (pos + buf.length) with
  | .error err => .error err
  | .ok bs => .ok (bs.length, pos + bs.length, bs ++ buf.drop bs.length)

/-- C7: a range read starting at or past the object's size returns zero
bytes instead of raising; a bounded range read never returns more bytes
than requested; and on a 100-byte object four 40-byte `readinto` calls
return counts 40, 40, 20, 0 with the position landing at 40, 80, 100, 100,
the last call leaving the buffer unchanged. -/
theorem read_past_eof_short (content : List Nat) (start endPos : Nat) :
    (content.length ≤ start → read_range content start endPos = .ok []) ∧
    (∀ bs, read_range content start endPos = .ok bs → 0 < endPos →
      bs.length ≤ endPos - start) ∧
    (∀ buf : List Nat, content.length = 100 → buf.length = 40 →
      ((readinto content 0 buf).map (fun r => (r.1, r.2.1)) =
        .ok (40, 40)) ∧
      ((readinto content 40 buf).map (fun r => (r.1, r.2.1)) =
        .ok (40, 80)) ∧
      ((readinto content 80 buf).map (fun r => (r.1, r.2.1)) =
        .ok (20, 100)) ∧
      readinto content 100 buf = .ok (0, 100, buf)) := by
  refine ⟨?_, ?_, ?_⟩
  · intro hstart
    rcases he : endPos with _ | e <;>
      simp [read_range, get_blob_to_stream, hstart]
  · intro bs hbs hpos
    by_cases hstart : content.length ≤ start
    · rcases he : endPos with _ | e
      · omega
      · rw [he] at hbs
        simp [read_range, get_blob_to_stream, hstart] at hbs
        simp_all
    · rcases he : endPos with _ | e
      · omega
      · rw [he] at hbs
        simp [read_range, get_blob_to_stream, hstart] at hbs
        rw [← hbs]
        simp [List.length_drop, List.length_take]
        omega
  · intro buf hc hb
    refine ⟨?_, ?_, ?_, ?_⟩
    · simp [readinto, read_range, get_blob_to_stream, hc, hb,
        List.length_drop, List.length_take, Except.map]
    · simp [readinto, read_range, get_blob_to_stream, hc, hb,
        List.length_drop, List.length_take, Except.map]
    · simp [readinto, read_range, get_blob_to_stream, hc, hb,
        List.length_drop, List.length_take, Except.map]
    · simp [readinto, read_range, get_blob_to_stream, hc, hb]

/-- Witness for C7: on the object 0..99, a read starting at its size
returns zero bytes, and the four 40-byte reads return 40, 40, 20, 0 bytes
with the position at 40, 80, 100, 100. -/
theorem read_past_eof_short_witness :
    read_range (List.range 100) 100 140 = .ok [] ∧
      (readinto (List.range 100) 80 (List.replicate 40 0)).map
          (fun r => (r.1, r.2.1)) = .ok (20, 100) ∧
      readinto (List.range 100) 100 (List.replicate 40 0) =
        .ok (0, 100, List.replicate 40 0) := by
  have h := read_past_eof_short (List.range 100) 100 140
  have h3 := (h.2.2 (List.replicate 40 0) (by simp) (by simp))
  exact ⟨h.1 (by simp), h3.2.2.1, h3.2.2.2⟩
